import Mathlib

/- Verification of vansante/archivex (archivex.go): incremental ZIP and TAR
   archive writers.

   Embedding conventions:
   * Go strings are embedded as lists of characters (`GoString`).
   * Go errors are abstracted as strings (`Err`); `Option Err` is a Go
     `error` result (`none` = nil).
   * Side-effecting methods become explicit state-passing functions; each
     fallible collaborator call (os.Create, encoder Close, Seek, header
     writes, stream copies) receives its outcome as an explicit argument,
     and functions also emit a trace of the collaborator operations they
     performed, in order.
   * The zip.Writer / tar.Writer / gzip.Writer collaborator encoders are
     abstracted to the fact that they are bound (a Bool per field). -/

/-- A Go string, embedded as its list of characters. -/
abbrev GoString := List Char

/-- Go error values, abstracted as strings; `none` models a nil error. -/
abbrev Err := String

/-- Go strings.HasSuffix s suffix. -/
def hasSuffix (s suffix : GoString) : Bool :=
  decide (suffix <:+ s)

/-- Scan step of Go strings.Replace(s, old, new, -1): scan left to right,
on a match of old emit new and skip past the match, otherwise copy one
character.  The fuel argument bounds the number of scan steps;
`replaceAll` supplies the length of s, which is never exhausted because
every step consumes at least one character of s. -/
def replaceAllGo (old new : GoString) : Nat → GoString → GoString
  | _, [] => []
  | 0, c :: rest => c :: rest
  | fuel + 1, c :: rest =>
    if old <+: c :: rest then
      new ++ replaceAllGo old new fuel (List.drop (old.length - 1) rest)
    else
      c :: replaceAllGo old new fuel rest

/-- Go strings.Replace(s, old, new, -1): replace every non-overlapping
occurrence of old in s by new. -/
def replaceAll (old new s : GoString) : GoString :=
  replaceAllGo old new s.length s

/-- The literal ".zip". -/
def extZip : GoString := ".zip".toList

/-- The literal ".tar.gz". -/
def extTarGz : GoString := ".tar.gz".toList

/-- The literal ".tar". -/
def extTar : GoString := ".tar".toList

/-- An output sink (a Go io.Writer): `isCloser` records whether its dynamic
type also implements io.Closer, and `closeErr` is the error its Close()
call would report. -/
structure Sink where
  isCloser : Bool
  closeErr : Option Err
deriving DecidableEq

/-- One collaborator operation performed during a Close call. -/
inductive CloseStep where
  | encoderClose
  | gzClose
  | sinkClose
deriving DecidableEq

/-- The sink release attempted at close time (archivex.go:107-109 and
227-229): Close() is invoked on the out field exactly when it is non-nil
and its dynamic type implements io.Closer; the source discards the
returned error in both writers. -/
def sinkSteps (out : Option Sink) : List CloseStep :=
  match out with
  | some s => if s.isCloser then [CloseStep.sinkClose] else []
  | none => []

/-- ZipFile (archivex.go:33-37).  `Writer` records whether the *zip.Writer
is bound. -/
structure ZipFile where
  Writer : Bool
  Name : GoString
  out : Option Sink
deriving DecidableEq

/-- TarFile (archivex.go:40-46). -/
structure TarFile where
  Writer : Bool
  Name : GoString
  GzWriter : Bool
  Compressed : Bool
  out : Option Sink
deriving DecidableEq

/-- The zero value of ZipFile (a freshly declared Go ZipFile). -/
def zipFileZero : ZipFile :=
  { Writer := false, Name := [], out := none }

/-- The zero value of TarFile (a freshly declared Go TarFile). -/
def tarFileZero : TarFile :=
  { Writer := false, Name := [], GzWriter := false, Compressed := false, out := none }

/-- The destination-name normalization inlined in ZipFile.Create
(archivex.go:50-57): if the name does not end in ".zip", then if it ends
in ".tar.gz" every occurrence of ".tar.gz" is replaced by ".zip"
(strings.Replace with count -1), otherwise ".zip" is appended. -/
def zipConfigureName (name : GoString) : GoString :=
  if hasSuffix name extZip then name
  else if hasSuffix name extTarGz then replaceAll extTarGz extZip name
  else name ++ extZip

/-- ZipFile.Create (archivex.go:49-65).  `osCreate` is the outcome of
os.Create(z.Name).  Note the source assigns z.Name, then on success binds
the zip.Writer; it never assigns z.out. -/
def ZipFile.Create (z : ZipFile) (name : GoString) (osCreate : Except Err Sink) :
    ZipFile × Option Err :=
  let z := { z with Name := zipConfigureName name }
  match osCreate with
  | .error e => (z, some e)
  | .ok _file => ({ z with Writer := true }, none)

/-- ZipFile.CreateWriter (archivex.go:68-72): binds a zip.Writer to the
given sink and stores the name unchanged; z.out is not assigned. -/
def ZipFile.CreateWriter (z : ZipFile) (name : GoString) (_w : Sink) :
    ZipFile × Option Err :=
  ({ z with Writer := true, Name := name }, none)

/-- ZipFile.Close (archivex.go:104-111): err := z.Writer.Close(); then the
out sink is Close()d when it implements io.Closer (error discarded); the
writer close error is returned. -/
def ZipFile.Close (z : ZipFile) (writerCloseErr : Option Err) :
    List CloseStep × Option Err :=
  (CloseStep.encoderClose :: sinkSteps z.out, writerCloseErr)

/-- TarFile.configureName (archivex.go:113-133): Compressed is first set
to whether the name ends in ".tar.gz"; when the name ends in neither
".tar.gz" nor ".tar", a name ending in ".zip" has every ".zip" occurrence
replaced by ".tar.gz" (strings.Replace with count -1) and Compressed set
to true, otherwise ".tar" is appended. -/
def TarFile.configureName (t : TarFile) (name : GoString) : TarFile :=
  let compressed := hasSuffix name extTarGz
  if !hasSuffix name extTarGz && !hasSuffix name extTar then
    if hasSuffix name extZip then
      { t with Name := replaceAll extZip extTarGz name, Compressed := true }
    else
      { t with Name := name ++ extTar, Compressed := compressed }
  else
    { t with Name := name, Compressed := compressed }

/-- TarFile.Create (archivex.go:136-152): configures the name, opens the
file, and binds tar.Writer (wrapped in a gzip.Writer when Compressed);
records the file as t.out. -/
def TarFile.Create (t : TarFile) (name : GoString) (osCreate : Except Err Sink) :
    TarFile × Option Err :=
  let t := t.configureName name
  match osCreate with
  | .error e => (t, some e)
  | .ok file =>
    if t.Compressed then
      ({ t with GzWriter := true, Writer := true, out := some file }, none)
    else
      ({ t with Writer := true, out := some file }, none)

/-- TarFile.CreateWriter (archivex.go:155-166): same configuration logic
as Create, but binds to the supplied sink. -/
def TarFile.CreateWriter (t : TarFile) (name : GoString) (w : Sink) :
    TarFile × Option Err :=
  let t := t.configureName name
  if t.Compressed then
    ({ t with GzWriter := true, Writer := true, out := some w }, none)
  else
    ({ t with Writer := true, out := some w }, none)

/-- TarFile.Close (archivex.go:213-231): closes the tar.Writer (returning
its error immediately on failure); when Compressed, closes the gzip.Writer
next (returning its error immediately on failure, without touching the
sink); finally Close()s the out sink when it implements io.Closer, with
the sink close error discarded, and returns err (necessarily nil at that
point). -/
def TarFile.Close (t : TarFile) (tarCloseErr gzCloseErr : Option Err) :
    List CloseStep × Option Err :=
  match tarCloseErr with
  | some e => ([CloseStep.encoderClose], some e)
  | none =>
    if t.Compressed then
      match gzCloseErr with
      | some e => ([CloseStep.encoderClose, CloseStep.gzClose], some e)
      | none =>
        (CloseStep.encoderClose :: CloseStep.gzClose :: sinkSteps t.out, none)
    else
      (CloseStep.encoderClose :: sinkSteps t.out, none)

/-- A seekable byte source (a Go io.ReadSeeker): abstract contents and a
current read position. -/
structure RSState where
  data : List Nat
  pos : Nat
deriving DecidableEq

/-- The tar.Header fields set by TarFile.AddFile (archivex.go:182-188).
Typeflag 48 is tar.TypeReg (the byte value of the character 0); Mode 438
is octal 0666; ModTime is the wall-clock instant passed in as `now`. -/
structure TarHeader where
  Name : GoString
  Typeflag : Nat
  Size : Nat
  Mode : Nat
  ModTime : Nat
deriving DecidableEq

/-- Outcomes of the fallible collaborator calls made by TarFile.AddFile. -/
structure TarFaults where
  seekEnd : Option Err
  seekStart : Option Err
  writeHeader : Option Err
  copy : Option Err
deriving DecidableEq

/-- One collaborator operation performed by TarFile.AddFile. -/
inductive TarEvent where
  | seekEnd (offset : Nat)
  | seekStart
  | writeHeader (h : TarHeader)
  | copy (content : List Nat)
deriving DecidableEq

/-- TarFile.AddFile (archivex.go:169-195): Seek(0, io.SeekEnd) to learn
the size, Seek(0, io.SeekStart) back, write a tar.Header with that size,
then io.Copy the whole source into the tar stream.  Each step returns its
error immediately on failure. -/
def TarFile.AddFile (_t : TarFile) (path : GoString) (now : Nat)
    (flt : TarFaults) (file : RSState) :
    List TarEvent × Option Err × RSState :=
  match flt.seekEnd with
  | some e => ([], some e, file)
  | none =>
    let file1 : RSState := { file with pos := file.data.length }
    let size := file1.pos
    match flt.seekStart with
    | some e => ([TarEvent.seekEnd size], some e, file1)
    | none =>
      let file2 : RSState := { file1 with pos := 0 }
      let header : TarHeader :=
        { Name := path, Typeflag := 48, Size := size, Mode := 438, ModTime := now }
      match flt.writeHeader with
      | some e => ([TarEvent.seekEnd size, TarEvent.seekStart], some e, file2)
      | none =>
        match flt.copy with
        | some e =>
          ([TarEvent.seekEnd size, TarEvent.seekStart, TarEvent.writeHeader header],
           some e, file2)
        | none =>
          ([TarEvent.seekEnd size, TarEvent.seekStart, TarEvent.writeHeader header,
            TarEvent.copy (file2.data.drop file2.pos)],
           none, { file2 with pos := file2.data.length })

/-- The zip.FileHeader fields set by ZipFile.AddFile (archivex.go:76-80).
Method 8 is zip.Deflate; the flag bit 1 <<< 11 marks a UTF-8 name. -/
structure ZipHeader where
  Name : GoString
  Flags : Nat
  Method : Nat
deriving DecidableEq

/-- Outcomes of the fallible collaborator calls made by ZipFile.AddFile. -/
structure ZipFaults where
  createHeader : Option Err
  copy : Option Err
deriving DecidableEq

/-- One collaborator operation performed by ZipFile.AddFile. -/
inductive ZipEvent where
  | createHeader (h : ZipHeader)
  | copyBuffer (content : List Nat) (bufSize : Nat)
deriving DecidableEq

/-- ZipFile.AddFile (archivex.go:75-88): CreateHeader with name, the UTF-8
flag bit and the deflate method, then io.CopyBuffer of the source from its
current position to its end through a 128*1024-byte buffer. -/
def ZipFile.AddFile (_z : ZipFile) (path : GoString) (flt : ZipFaults)
    (file : RSState) :
    List ZipEvent × Option Err × RSState :=
  let header : ZipHeader := { Name := path, Flags := 1 <<< 11, Method := 8 }
  match flt.createHeader with
  | some e => ([], some e, file)
  | none =>
    match flt.copy with
    | some e => ([ZipEvent.createHeader header], some e, file)
    | none =>
      ([ZipEvent.createHeader header,
        ZipEvent.copyBuffer (file.data.drop file.pos) (128 * 1024)],
       none, { file with pos := file.data.length })

/-- Modelled from the spec: a filesystem tree as traversed by AddAll
(section 4.4).  The AddAll implementation itself is not part of src/ (only
the ArchiveWriteFunc declaration at archivex.go:28-30 is), so the tree and
the traversal below follow the words of the spec. -/
inductive FSNode where
  | file (name : GoString)
  | dir (name : GoString) (children : List FSNode)

/-- Modelled from the spec: one call AddAll makes on the archive handle it
is given (section 4.4): AddDirectory with a directory's relative path, or
AddFile with a regular file's relative path. -/
inductive ArchiveCall where
  | addDirectory (path : GoString)
  | addFile (path : GoString)
deriving DecidableEq

mutual
/-- Modelled from the spec: the calls AddAll makes for one tree node, in
traversal order; `pre` is the forward-slash-joined relative path prefix
(section 4.4: entry names always use forward-slash separators). -/
def nodeCalls (pre : GoString) : FSNode → List ArchiveCall
  | .file n => [ArchiveCall.addFile (pre ++ n)]
  | .dir n cs =>
    ArchiveCall.addDirectory (pre ++ n) :: forestCalls (pre ++ n ++ ['/']) cs
/-- Modelled from the spec: the calls AddAll makes for a list of sibling
nodes, in order. -/
def forestCalls (pre : GoString) : List FSNode → List ArchiveCall
  | [] => []
  | t :: ts => nodeCalls pre t ++ forestCalls pre ts
end

/-- Modelled from the spec: all calls AddAll makes for a root directory
with the given children (section 4.4): when includeCurrentFolder is true
the root directory segment is itself added and prefixes every entry name;
otherwise entries are named relative to the root with no prefix. -/
def addAllCalls (rootName : GoString) (children : List FSNode)
    (includeCurrentFolder : Bool) : List ArchiveCall :=
  if includeCurrentFolder then
    ArchiveCall.addDirectory rootName :: forestCalls (rootName ++ ['/']) children
  else
    forestCalls [] children

/-- Run a list of archive calls against a handle (modelled as a function
from call to optional error), stopping at the first error: returns the
successfully performed prefix and the first error, if any. -/
def runCalls (arc : ArchiveCall → Option Err) :
    List ArchiveCall → List ArchiveCall × Option Err
  | [] => ([], none)
  | c :: cs =>
    match arc c with
    | some e => ([], some e)
    | none =>
      let r := runCalls arc cs
      (c :: r.1, r.2)

mutual
/-- Modelled from the spec: AddAll's traversal of one node, performing
archive calls as it goes and stopping at the first error (section 4.4:
traversal stops at the first failure, no partial-success continuation). -/
def addAllNode (arc : ArchiveCall → Option Err) (pre : GoString) :
    FSNode → List ArchiveCall × Option Err
  | .file n =>
    match arc (ArchiveCall.addFile (pre ++ n)) with
    | some e => ([], some e)
    | none => ([ArchiveCall.addFile (pre ++ n)], none)
  | .dir n cs =>
    match arc (ArchiveCall.addDirectory (pre ++ n)) with
    | some e => ([], some e)
    | none =>
      let r := addAllForest arc (pre ++ n ++ ['/']) cs
      (ArchiveCall.addDirectory (pre ++ n) :: r.1, r.2)
/-- Modelled from the spec: AddAll's traversal of sibling nodes in order,
stopping at the first error. -/
def addAllForest (arc : ArchiveCall → Option Err) (pre : GoString) :
    List FSNode → List ArchiveCall × Option Err
  | [] => ([], none)
  | t :: ts =>
    match addAllNode arc pre t with
    | (done, some e) => (done, some e)
    | (done, none) =>
      let r := addAllForest arc pre ts
      (done ++ r.1, r.2)
end

/-- Modelled from the spec: the free function AddAll (section 4.4), over a
root directory whose last path segment is rootName and whose contents are
children, a flag saying whether the root segment is included as a path
prefix, and an archive handle exposing AddFile/AddDirectory (modelled by
`arc`).  Returns the successfully performed calls and the first error. -/
def addAll (arc : ArchiveCall → Option Err) (rootName : GoString)
    (children : List FSNode) (includeCurrentFolder : Bool) :
    List ArchiveCall × Option Err :=
  if includeCurrentFolder then
    match arc (ArchiveCall.addDirectory rootName) with
    | some e => ([], some e)
    | none =>
      let r := addAllForest arc (rootName ++ ['/']) children
      (ArchiveCall.addDirectory rootName :: r.1, r.2)
  else
    addAllForest arc [] children

/-- An archive handle on which every add call succeeds (used to
instantiate the AddAll theorems at a concrete input). -/
def arcAllOk : ArchiveCall → Option Err := fun _ => none

/-- hasSuffix agrees with the list suffix relation. -/
theorem hasSuffix_iff (s suffix : GoString) : hasSuffix s suffix = true ↔ suffix <:+ s := by
  simp [hasSuffix]

/-- The appended extension is a suffix of the result. -/
theorem hasSuffix_append_self (s ext : GoString) : hasSuffix (s ++ ext) ext = true := by
  simp [hasSuffix]

/-- Of two suffixes of the same list, the shorter is a suffix of the longer. -/
theorem suffix_of_suffix_of_length_le (l₁ l₂ l₃ : GoString) (h1 : l₁ <:+ l₃)
    (h2 : l₂ <:+ l₃) (hl : l₁.length ≤ l₂.length) : l₁ <:+ l₂ := by
  obtain ⟨a, ha⟩ := h1
  obtain ⟨b, hb⟩ := h2
  have hlen : a.length + l₁.length = b.length + l₂.length := by
    have := congrArg List.length (ha.trans hb.symm)
    simpa [List.length_append] using this
  have hba : b.length ≤ a.length := by omega
  have h1' : l₁ = List.drop a.length l₃ := by rw [← ha, List.drop_left]
  have h2' : l₂ = List.drop b.length l₃ := by rw [← hb, List.drop_left]
  have : l₁ = List.drop (a.length - b.length) l₂ := by
    rw [h1', h2', List.drop_drop]
    congr 1
    omega
  rw [this]
  exact List.drop_suffix _ _

/-- Replacement by a border-free pattern preserves being suffixed by the
pattern, turning it into the replacement: if old is non-empty, has no
nontrivial border (no proper prefix equal to a proper suffix), and is a
suffix of s, then new is a suffix of the replaced string. -/
theorem suffix_replaceAllGo (old new : GoString) (hne : old ≠ [])
    (hnb : ∀ k, k < old.length → 0 < k → old.take k ≠ old.drop (old.length - k)) :
    ∀ fuel s, s.length ≤ fuel → old <:+ s → new <:+ replaceAllGo old new fuel s := by
  intro fuel
  induction fuel with
  | zero =>
    intro s hlen hsuf
    have hs : s = [] := List.eq_nil_of_length_eq_zero (Nat.le_zero.mp hlen)
    subst hs
    exact absurd (List.suffix_nil.mp hsuf) hne
  | succ n ih =>
    intro s hlen hsuf
    cases s with
    | nil => exact absurd (List.suffix_nil.mp hsuf) hne
    | cons c rest =>
      have hopos : 0 < old.length := List.length_pos.mpr hne
      by_cases hp : old <+: c :: rest
      · have hstep : replaceAllGo old new (n + 1) (c :: rest)
            = new ++ replaceAllGo old new n (List.drop (old.length - 1) rest) := by
          simp [replaceAllGo, hp]
        rw [hstep]
        obtain ⟨u, hu⟩ := hp
        have hdropeq : List.drop (old.length - 1) rest = u := by
          have h1 : List.drop old.length (c :: rest) = List.drop (old.length - 1) rest := by
            conv_lhs => rw [show old.length = (old.length - 1) + 1 by omega]
            exact List.drop_succ_cons
          have h2 : List.drop old.length (c :: rest) = u := by
            rw [← hu]
            exact List.drop_left old u
          rw [← h1, h2]
        rw [hdropeq]
        have hucase : u = [] ∨ old <:+ u := by
          obtain ⟨v, hv⟩ := hsuf
          have hvu : v ++ old = old ++ u := by rw [hv, hu]
          have hlenvu : v.length = u.length := by
            have := congrArg List.length hvu
            simp [List.length_append] at this
            omega
          rcases Nat.eq_zero_or_pos u.length with h0 | hupos
          · exact Or.inl (List.eq_nil_of_length_eq_zero h0)
          · have hold : List.drop u.length (old ++ u) = old := by
              rw [← hvu, ← hlenvu]
              exact List.drop_left v old
            rcases le_or_lt old.length u.length with hle | hlt
            · refine Or.inr ?_
              have : List.drop u.length (old ++ u) = List.drop (u.length - old.length) u := by
                rw [List.drop_append_eq_append_drop, List.drop_eq_nil_of_le hle]
                simp
              rw [this] at hold
              rw [← hold]
              exact List.drop_suffix _ _
            · exfalso
              have hb : List.drop u.length (old ++ u) = List.drop u.length old ++ u := by
                rw [List.drop_append_eq_append_drop,
                  Nat.sub_eq_zero_of_le (Nat.le_of_lt hlt), List.drop_zero]
              rw [hb] at hold
              have htake : old.take (old.length - u.length) = List.drop u.length old := by
                conv_lhs => rw [← hold]
                exact List.take_left' (by simp [List.length_drop])
              have := hnb (old.length - u.length) (by omega) (by omega)
              rw [show old.length - (old.length - u.length) = u.length by omega] at this
              exact this htake
        rcases hucase with h | h
        · subst h
          simp [replaceAllGo]
        · have hulen : u.length ≤ n := by
            have := congrArg List.length hu
            simp [List.length_append] at this
            simp at hlen
            omega
          exact (ih u hulen h).trans (List.suffix_append new _)
      · have hstep : replaceAllGo old new (n + 1) (c :: rest)
            = c :: replaceAllGo old new n rest := by
          simp [replaceAllGo, hp]
        rw [hstep]
        obtain ⟨v, hv⟩ := hsuf
        cases v with
        | nil =>
          simp at hv
          exact absurd (by rw [hv]) hp
        | cons c' v' =>
          have hv' : v' ++ old = rest := by
            simp [List.cons_append] at hv
            exact hv.2
          have hrlen : rest.length ≤ n := by
            simp at hlen
            omega
          have := ih rest hrlen ⟨v', hv'⟩
          exact this.trans (List.suffix_cons c _)

/-- The pattern ".tar.gz" has no nontrivial border. -/
theorem extTarGz_noborder :
    ∀ k, k < extTarGz.length → 0 < k →
      extTarGz.take k ≠ extTarGz.drop (extTarGz.length - k) := by decide

/-- The pattern ".zip" has no nontrivial border. -/
theorem extZip_noborder :
    ∀ k, k < extZip.length → 0 < k →
      extZip.take k ≠ extZip.drop (extZip.length - k) := by decide

/-- Replacing every ".tar.gz" by ".zip" in a name ending in ".tar.gz"
yields a name ending in ".zip". -/
theorem zip_replace_ends (name : GoString) (h : hasSuffix name extTarGz = true) :
    hasSuffix (replaceAll extTarGz extZip name) extZip = true := by
  rw [hasSuffix_iff] at h ⊢
  exact suffix_replaceAllGo extTarGz extZip (by decide) extTarGz_noborder
    name.length name le_rfl h

/-- Replacing every ".zip" by ".tar.gz" in a name ending in ".zip" yields
a name ending in ".tar.gz". -/
theorem tar_replace_ends (name : GoString) (h : hasSuffix name extZip = true) :
    hasSuffix (replaceAll extZip extTarGz name) extTarGz = true := by
  rw [hasSuffix_iff] at h ⊢
  exact suffix_replaceAllGo extZip extTarGz (by decide) extZip_noborder
    name.length name le_rfl h

/-- A name ending in the appended ".tar" does not end in ".tar.gz". -/
theorem append_tar_not_targz (s : GoString) :
    hasSuffix (s ++ extTar) extTarGz = false := by
  simp only [hasSuffix, decide_eq_false_iff_not]
  intro h
  have h2 : extTar <:+ s ++ extTar := List.suffix_append s extTar
  have : extTar <:+ extTarGz :=
    suffix_of_suffix_of_length_le extTar extTarGz (s ++ extTar) h2 h (by decide)
  revert this
  decide

/-- The name produced by the ZIP normalization always ends in ".zip". -/
theorem zipConfigureName_ends_zip (name : GoString) :
    hasSuffix (zipConfigureName name) extZip = true := by
  unfold zipConfigureName
  by_cases h1 : hasSuffix name extZip = true
  · simp [h1]
  · simp only [Bool.not_eq_true] at h1
    by_cases h2 : hasSuffix name extTarGz = true
    · simpa [h1, h2] using zip_replace_ends name h2
    · simp only [Bool.not_eq_true] at h2
      simpa [h1, h2] using hasSuffix_append_self name extZip

/-- The ZIP normalization is the identity on names already ending in
".zip". -/
theorem zipConfigureName_id_of_ends (s : GoString) (h : hasSuffix s extZip = true) :
    zipConfigureName s = s := by
  simp [zipConfigureName, h]

/-- Case analysis of TarFile.configureName: the four branches of the
naming/compression policy. -/
theorem tar_configureName_case (t : TarFile) (name : GoString) :
    (hasSuffix name extTarGz = true →
      t.configureName name = { t with Name := name, Compressed := true }) ∧
    (hasSuffix name extTarGz = false → hasSuffix name extTar = true →
      t.configureName name = { t with Name := name, Compressed := false }) ∧
    (hasSuffix name extTarGz = false → hasSuffix name extTar = false →
      hasSuffix name extZip = true →
      t.configureName name =
        { t with Name := replaceAll extZip extTarGz name, Compressed := true }) ∧
    (hasSuffix name extTarGz = false → hasSuffix name extTar = false →
      hasSuffix name extZip = false →
      t.configureName name = { t with Name := name ++ extTar, Compressed := false }) := by
  refine ⟨fun h1 => ?_, fun h1 h2 => ?_, fun h1 h2 h3 => ?_, fun h1 h2 h3 => ?_⟩ <;>
    simp [TarFile.configureName, h1]
  · simp [h2]
  · simp [h2, h3]
  · simp [h2, h3]

/-- Invariant established by TarFile.configureName: the resulting Name
ends in ".tar" or ".tar.gz", and Compressed records exactly whether it
ends in ".tar.gz". -/
theorem tar_configureName_invariant (t : TarFile) (name : GoString) :
    (hasSuffix (t.configureName name).Name extTar = true ∨
      hasSuffix (t.configureName name).Name extTarGz = true) ∧
    (t.configureName name).Compressed = hasSuffix (t.configureName name).Name extTarGz := by
  obtain ⟨hA, hB, hC, hD⟩ := tar_configureName_case t name
  by_cases h1 : hasSuffix name extTarGz = true
  · rw [hA h1]
    exact ⟨Or.inr h1, h1.symm⟩
  · simp only [Bool.not_eq_true] at h1
    by_cases h2 : hasSuffix name extTar = true
    · rw [hB h1 h2]
      simp [h1, h2]
    · simp only [Bool.not_eq_true] at h2
      by_cases h3 : hasSuffix name extZip = true
      · rw [hC h1 h2 h3]
        have := tar_replace_ends name h3
        simp [this]
      · simp only [Bool.not_eq_true] at h3
        rw [hD h1 h2 h3]
        simp [hasSuffix_append_self, append_tar_not_targz]

/-- Running a concatenation of call lists: the second list runs only when
the first runs without error. -/
theorem runCalls_append (arc : ArchiveCall → Option Err) (l₁ l₂ : List ArchiveCall) :
    runCalls arc (l₁ ++ l₂) =
      match runCalls arc l₁ with
      | (d, some e) => (d, some e)
      | (d, none) => (d ++ (runCalls arc l₂).1, (runCalls arc l₂).2) := by
  induction l₁ with
  | nil => simp [runCalls]
  | cons c cs ih =>
    cases hc : arc c with
    | some e => simp [runCalls, hc]
    | none =>
      simp only [List.cons_append, runCalls, hc]
      rw [show cs.append l₂ = cs ++ l₂ from rfl, ih]
      rcases h : runCalls arc cs with ⟨d, r⟩
      cases r <;> simp

/-- When every call succeeds, running performs every call in order and
reports no error. -/
theorem runCalls_all_ok (arc : ArchiveCall → Option Err) :
    ∀ l : List ArchiveCall, (∀ c ∈ l, arc c = none) → runCalls arc l = (l, none) := by
  intro l
  induction l with
  | nil => intro _; rfl
  | cons c cs ih =>
    intro h
    have hc : arc c = none := h c (by simp)
    have hcs := ih (fun c' hc' => h c' (by simp [hc']))
    simp [runCalls, hc, hcs]

/-- When running reports an error, it is the error of the first failing
call, every earlier call succeeded, and exactly those earlier calls were
performed. -/
theorem runCalls_first_error (arc : ArchiveCall → Option Err) :
    ∀ (l : List ArchiveCall) (e : Err), (runCalls arc l).2 = some e →
      ∃ done c rest, l = done ++ c :: rest ∧ (∀ c' ∈ done, arc c' = none) ∧
        arc c = some e ∧ (runCalls arc l).1 = done := by
  intro l
  induction l with
  | nil => intro e h; simp [runCalls] at h
  | cons c cs ih =>
    intro e h
    cases hc : arc c with
    | some e' =>
      have he : e' = e := by
        simp [runCalls, hc] at h
        exact h
      subst he
      exact ⟨[], c, cs, by simp, by simp, hc, by simp [runCalls, hc]⟩
    | none =>
      simp only [runCalls, hc] at h
      obtain ⟨done, c', rest, hsplit, hdone, hc', hperf⟩ := ih e h
      refine ⟨c :: done, c', rest, by simp [hsplit], ?_, hc', ?_⟩
      · intro x hx
        rcases List.mem_cons.mp hx with h | h
        · exact h ▸ hc
        · exact hdone x h
      · simp [runCalls, hc, hperf]

/-- The early-exit traversal of a node agrees with running its enumerated
calls; joint statement with the forest version, by strong induction on
size. -/
theorem addAll_traversal_eq_runCalls (arc : ArchiveCall → Option Err) :
    ∀ n : Nat,
      (∀ t : FSNode, sizeOf t ≤ n → ∀ pre,
        addAllNode arc pre t = runCalls arc (nodeCalls pre t)) ∧
      (∀ ts : List FSNode, sizeOf ts ≤ n → ∀ pre,
        addAllForest arc pre ts = runCalls arc (forestCalls pre ts)) := by
  intro n
  induction n with
  | zero =>
    constructor
    · intro t ht
      exfalso
      cases t <;> simp at ht
    · intro ts hts
      exfalso
      cases ts <;> simp at hts
  | succ n ih =>
    constructor
    · intro t ht pre
      cases t with
      | file nm =>
        cases harc : arc (ArchiveCall.addFile (pre ++ nm)) <;>
          simp [addAllNode, nodeCalls, runCalls, harc]
      | dir nm cs =>
        have hcs : sizeOf cs ≤ n := by
          simp at ht
          omega
        have hf := ih.2 cs hcs (pre ++ (nm ++ ['/']))
        cases harc : arc (ArchiveCall.addDirectory (pre ++ nm)) <;>
          simp [addAllNode, nodeCalls, runCalls, harc, hf]
    · intro ts hts pre
      cases ts with
      | nil => rfl
      | cons t ts' =>
        have ht : sizeOf t ≤ n := by
          simp at hts
          omega
        have hts' : sizeOf ts' ≤ n := by
          simp at hts
          omega
        have hn := ih.1 t ht pre
        have hf := ih.2 ts' hts' pre
        rcases hrun : runCalls arc (nodeCalls pre t) with ⟨d, r⟩
        cases r <;>
          simp [addAllForest, forestCalls, hn, hf, runCalls_append, hrun]

/-- AddAll's early-exit traversal runs exactly the enumerated calls. -/
theorem addAll_eq_runCalls (arc : ArchiveCall → Option Err) (rootName : GoString)
    (children : List FSNode) (includeCurrentFolder : Bool) :
    addAll arc rootName children includeCurrentFolder =
      runCalls arc (addAllCalls rootName children includeCurrentFolder) := by
  have hf := (addAll_traversal_eq_runCalls arc (sizeOf children)).2 children le_rfl
  cases includeCurrentFolder with
  | false => simpa [addAll, addAllCalls] using hf []
  | true =>
    cases harc : arc (ArchiveCall.addDirectory rootName) <;>
      simp [addAll, addAllCalls, runCalls, harc, hf (rootName ++ ['/'])]

/-- Structure update that rewrites Name to its own value and Compressed to
its current value is the identity. -/
theorem tarFile_eta (t : TarFile) (b : Bool) (h : t.Compressed = b) :
    { t with Name := t.Name, Compressed := b } = t := by
  cases t
  simp at h
  simp [h]

/-- TarFile.configureName never touches the GzWriter field. -/
theorem tar_configureName_gz (t : TarFile) (name : GoString) :
    (t.configureName name).GzWriter = t.GzWriter := by
  obtain ⟨hA, hB, hC, hD⟩ := tar_configureName_case t name
  by_cases h1 : hasSuffix name extTarGz = true
  · rw [hA h1]
  · simp only [Bool.not_eq_true] at h1
    by_cases h2 : hasSuffix name extTar = true
    · rw [hB h1 h2]
    · simp only [Bool.not_eq_true] at h2
      by_cases h3 : hasSuffix name extZip = true
      · rw [hC h1 h2 h3]
      · simp only [Bool.not_eq_true] at h3
        rw [hD h1 h2 h3]

/-- C1: the claim states that after a successful Create, Close releases
the underlying output sink when it exposes a release operation.  The code
does not: ZipFile.Create (archivex.go:49-65) never assigns z.out, so the
close-time release check (archivex.go:107-109) always sees a nil sink.
This theorem evaluates the model at the failing input: Create succeeds on
a sink that does implement io.Closer, yet the close trace contains no
sink release step. -/
theorem zipCreate_close_never_releases_sink :
    (ZipFile.Create zipFileZero "a.zip".toList
        (.ok { isCloser := true, closeErr := none })).2 = none ∧
    ZipFile.Close (ZipFile.Create zipFileZero "a.zip".toList
        (.ok { isCloser := true, closeErr := none })).1 none
      = ([CloseStep.encoderClose], none) := by
  decide

/-- C2: AddAll (modelled from the spec, section 4.4) recursively visits
every filesystem entry under the root: when every archive call succeeds it
performs exactly the enumerated calls — AddDirectory for each directory
(the root included when requested) and AddFile for each regular file, with
forward-slash-joined relative paths, in traversal order — and otherwise it
returns the error of the first failing call, with exactly the calls before
that one performed (traversal stops at the first failure). -/
theorem addAll_visits_all_and_stops_at_first_error
    (arc : ArchiveCall → Option Err) (rootName : GoString)
    (children : List FSNode) (includeCurrentFolder : Bool) :
    ((∀ c ∈ addAllCalls rootName children includeCurrentFolder, arc c = none) →
      addAll arc rootName children includeCurrentFolder =
        (addAllCalls rootName children includeCurrentFolder, none)) ∧
    (∀ e : Err, (addAll arc rootName children includeCurrentFolder).2 = some e →
      ∃ done c rest,
        addAllCalls rootName children includeCurrentFolder = done ++ c :: rest ∧
        (∀ c' ∈ done, arc c' = none) ∧ arc c = some e ∧
        (addAll arc rootName children includeCurrentFolder).1 = done) := by
  constructor
  · intro h
    rw [addAll_eq_runCalls]
    exact runCalls_all_ok arc _ h
  · intro e h
    rw [addAll_eq_runCalls] at h ⊢
    exact runCalls_first_error arc _ e h

/-- Witness for C2 at a concrete tree (a root directory containing a
subdirectory with one file, plus a top-level file) against a handle that
accepts every call. -/
theorem addAll_visits_witness :
    addAll arcAllOk "root".toList
        [FSNode.dir "sub".toList [FSNode.file "f.txt".toList],
         FSNode.file "a".toList] true
      = (addAllCalls "root".toList
          [FSNode.dir "sub".toList [FSNode.file "f.txt".toList],
           FSNode.file "a".toList] true, none) :=
  (addAll_visits_all_and_stops_at_first_error arcAllOk "root".toList
      [FSNode.dir "sub".toList [FSNode.file "f.txt".toList],
       FSNode.file "a".toList] true).1 (fun _ _ => rfl)

/-- C3 counterexample: TarFile.CreateWriter does not take the name purely
as a label — on "out" it stores "out.tar", so the claim that the
writer-backed variant of either writer skips normalization fails. -/
theorem tarCreateWriter_normalizes_name_cex :
    (TarFile.CreateWriter tarFileZero "out".toList
        { isCloser := false, closeErr := none }).1.Name = "out.tar".toList ∧
    "out.tar".toList ≠ ("out".toList : GoString) := by
  decide

/-- C3 amended: ZipFile.CreateWriter stores the name argument unchanged,
purely as a label, with no normalization or compression detection; but
TarFile.CreateWriter applies exactly the same destination-name
normalization and compression detection as TarFile.Create. -/
theorem createWriter_name_label_amended (z : ZipFile) (t : TarFile)
    (name : GoString) (w file : Sink) :
    (z.CreateWriter name w).1.Name = name ∧
    (t.CreateWriter name w).1.Name = (t.Create name (.ok file)).1.Name ∧
    (t.CreateWriter name w).1.Compressed
      = (t.Create name (.ok file)).1.Compressed := by
  refine ⟨rfl, ?_, ?_⟩ <;>
    · simp only [TarFile.CreateWriter, TarFile.Create]
      by_cases hc : (t.configureName name).Compressed = true <;> simp [hc]

/-- C4 counterexample: with both encoder closes succeeding and a closable
sink whose Close reports the error "sink close failure", TarFile.Close
performs the sink release but returns nil — the sink-release error is not
returned to the caller, contradicting the claim as stated. -/
theorem tarClose_sink_error_swallowed_cex :
    TarFile.Close
        { Writer := true, Name := "x.tar.gz".toList, GzWriter := true,
          Compressed := true,
          out := some { isCloser := true, closeErr := some "sink close failure" } }
        none none
      = ([CloseStep.encoderClose, CloseStep.gzClose, CloseStep.sinkClose], none) := by
  decide

/-- C4 amended: TarFile.Close finalizes strictly inner to outer — the TAR
encoder first (its error returned immediately), then the gzip encoder when
a wrapper is active (its error returned immediately, without attempting
sink release), and finally the sink release when the sink supports it —
but the sink-release error is discarded: Close returns nil whenever the
encoder closes succeed. -/
theorem tarClose_order_amended (t : TarFile) (tarCloseErr gzCloseErr : Option Err) :
    (∀ e : Err, tarCloseErr = some e →
      t.Close tarCloseErr gzCloseErr = ([CloseStep.encoderClose], some e)) ∧
    (∀ e : Err, tarCloseErr = none → t.Compressed = true → gzCloseErr = some e →
      t.Close tarCloseErr gzCloseErr
        = ([CloseStep.encoderClose, CloseStep.gzClose], some e)) ∧
    (tarCloseErr = none → t.Compressed = true → gzCloseErr = none →
      t.Close tarCloseErr gzCloseErr
        = (CloseStep.encoderClose :: CloseStep.gzClose :: sinkSteps t.out, none)) ∧
    (tarCloseErr = none → t.Compressed = false →
      t.Close tarCloseErr gzCloseErr
        = (CloseStep.encoderClose :: sinkSteps t.out, none)) := by
  refine ⟨?_, ?_, ?_, ?_⟩
  · intro e h
    subst h
    rfl
  · intro e h1 h2 h3
    subst h1
    subst h3
    simp [TarFile.Close, h2]
  · intro h1 h2 h3
    subst h1
    subst h3
    simp [TarFile.Close, h2]
  · intro h1 h2
    subst h1
    simp [TarFile.Close, h2]

/-- Witness for C4 amended at a concrete compressed handle with a closable
sink: both encoder closes succeed and the trace ends with the sink
release. -/
theorem tarClose_order_witness :
    TarFile.Close
        { Writer := true, Name := "x.tar.gz".toList, GzWriter := true,
          Compressed := true, out := some { isCloser := true, closeErr := none } }
        none none
      = (CloseStep.encoderClose :: CloseStep.gzClose ::
          sinkSteps (some { isCloser := true, closeErr := none }), none) :=
  (tarClose_order_amended
      { Writer := true, Name := "x.tar.gz".toList, GzWriter := true,
        Compressed := true, out := some { isCloser := true, closeErr := none } }
      none none).2.2.1 rfl rfl rfl

/-- C5 counterexample: on "a.zip.zip" the TAR name configuration rewrites
every ".zip" occurrence, producing "a.tar.gz.tar.gz", not the
"a.zip.tar.gz" that replacing only the trailing suffix would give. -/
theorem tarConfigureName_replaces_all_cex :
    (TarFile.configureName tarFileZero "a.zip.zip".toList).Name
        = "a.tar.gz.tar.gz".toList ∧
    (TarFile.configureName tarFileZero "a.zip.zip".toList).Name
        ≠ "a.zip.tar.gz".toList := by
  decide

/-- C5 amended: for every name given to TarFile's name configuration
(shared by Create and CreateWriter), Compressed is set to true exactly
when the name ends in ".tar.gz"; if the name ends in neither ".tar.gz" nor
".tar", then if it ends in ".zip" every occurrence of ".zip" is replaced
with ".tar.gz" and Compressed is set to true, otherwise ".tar" is appended
and Compressed stays false; in particular Create("out.zip") on a TarFile
yields destination name "out.tar.gz" with Compressed true. -/
theorem tarConfigureName_cases_amended (t : TarFile) (name : GoString)
    (file : Sink) :
    (hasSuffix name extTarGz = true →
      t.configureName name = { t with Name := name, Compressed := true }) ∧
    (hasSuffix name extTarGz = false → hasSuffix name extTar = true →
      t.configureName name = { t with Name := name, Compressed := false }) ∧
    (hasSuffix name extTarGz = false → hasSuffix name extTar = false →
      hasSuffix name extZip = true →
      t.configureName name =
        { t with Name := replaceAll extZip extTarGz name, Compressed := true }) ∧
    (hasSuffix name extTarGz = false → hasSuffix name extTar = false →
      hasSuffix name extZip = false →
      t.configureName name = { t with Name := name ++ extTar, Compressed := false }) ∧
    ((t.Create "out.zip".toList (.ok file)).1.Name = "out.tar.gz".toList ∧
      (t.Create "out.zip".toList (.ok file)).1.Compressed = true) := by
  obtain ⟨hA, hB, hC, hD⟩ := tar_configureName_case t name
  have hrep : replaceAll extZip extTarGz "out.zip".toList = "out.tar.gz".toList := by
    decide
  have h : t.configureName "out.zip".toList
      = { t with Name := "out.tar.gz".toList, Compressed := true } := by
    rw [(tar_configureName_case t "out.zip".toList).2.2.1
      (by decide) (by decide) (by decide), hrep]
  have hcre : t.Create "out.zip".toList (.ok file) =
      if (t.configureName "out.zip".toList).Compressed then
        ({ t.configureName "out.zip".toList with
            GzWriter := true, Writer := true, out := some file }, none)
      else
        ({ t.configureName "out.zip".toList with
            Writer := true, out := some file }, none) := rfl
  refine ⟨hA, hB, hC, hD, ?_, ?_⟩ <;> rw [hcre, h] <;> rfl

/-- Witness for C5 amended: the ".zip" branch at the concrete name
"a.zip.zip". -/
theorem tarConfigureName_cases_witness :
    TarFile.configureName tarFileZero "a.zip.zip".toList
      = { tarFileZero with
          Name := replaceAll extZip extTarGz "a.zip.zip".toList,
          Compressed := true } :=
  (tarConfigureName_cases_amended tarFileZero "a.zip.zip".toList
      { isCloser := false, closeErr := none }).2.2.1
    (by decide) (by decide) (by decide)

/-- C6 counterexample: on "a.tar.gz.tar.gz" (which does not end in ".zip")
ZipFile.Create rewrites every ".tar.gz" occurrence, storing "a.zip.zip",
not the "a.tar.gz.zip" that rewriting only the trailing suffix would
give. -/
theorem zipCreate_replaces_all_cex :
    (ZipFile.Create zipFileZero "a.tar.gz.tar.gz".toList
        (.ok { isCloser := true, closeErr := none })).1.Name = "a.zip.zip".toList ∧
    (ZipFile.Create zipFileZero "a.tar.gz.tar.gz".toList
        (.ok { isCloser := true, closeErr := none })).1.Name
      ≠ "a.tar.gz.zip".toList := by
  decide

/-- C6 amended: for every name given to ZipFile.Create: a name already
ending in ".zip" is kept unchanged; otherwise, if it ends in ".tar.gz",
every occurrence of ".tar.gz" in the name is rewritten to ".zip";
otherwise ".zip" is appended; the resulting name is the destination path
stored in the handle. -/
theorem zipCreate_name_cases_amended (z : ZipFile) (name : GoString)
    (file : Sink) :
    (hasSuffix name extZip = true →
      (z.Create name (.ok file)).1.Name = name) ∧
    (hasSuffix name extZip = false → hasSuffix name extTarGz = true →
      (z.Create name (.ok file)).1.Name = replaceAll extTarGz extZip name) ∧
    (hasSuffix name extZip = false → hasSuffix name extTarGz = false →
      (z.Create name (.ok file)).1.Name = name ++ extZip) := by
  refine ⟨fun h1 => ?_, fun h1 h2 => ?_, fun h1 h2 => ?_⟩
  · simp [ZipFile.Create, zipConfigureName, h1]
  · simp [ZipFile.Create, zipConfigureName, h1, h2]
  · simp [ZipFile.Create, zipConfigureName, h1, h2]

/-- Witness for C6 amended: the append branch at the concrete name
"photos". -/
theorem zipCreate_name_witness :
    (ZipFile.Create zipFileZero "photos".toList
        (.ok { isCloser := true, closeErr := none })).1.Name
      = "photos".toList ++ extZip :=
  (zipCreate_name_cases_amended zipFileZero "photos".toList
      { isCloser := true, closeErr := none }).2.2 (by decide) (by decide)

/-- C7: TarFile.AddFile determines the entry length by seeking the source
to its end and reading the resulting offset, seeks the source back to its
start, writes a TAR regular-file header carrying that size strictly before
the copy event, copies all bytes, and on success leaves the source
positioned at end-of-data; it returns nil exactly when neither seek, nor
the header write, nor the copy fails (and otherwise returns the error of
the first failing step). -/
theorem tarAddFile_measures_then_writes (t : TarFile) (path : GoString)
    (now : Nat) (flt : TarFaults) (file : RSState) :
    (flt.seekEnd = none → flt.seekStart = none → flt.writeHeader = none →
      flt.copy = none →
      t.AddFile path now flt file =
        ([TarEvent.seekEnd file.data.length, TarEvent.seekStart,
          TarEvent.writeHeader
            { Name := path, Typeflag := 48, Size := file.data.length,
              Mode := 438, ModTime := now },
          TarEvent.copy file.data],
         none, { data := file.data, pos := file.data.length })) ∧
    ((t.AddFile path now flt file).2.1 = none ↔
      flt.seekEnd = none ∧ flt.seekStart = none ∧ flt.writeHeader = none ∧
        flt.copy = none) := by
  constructor
  · intro h1 h2 h3 h4
    simp [TarFile.AddFile, h1, h2, h3, h4]
  · cases h1 : flt.seekEnd <;> cases h2 : flt.seekStart <;>
      cases h3 : flt.writeHeader <;> cases h4 : flt.copy <;>
      simp [TarFile.AddFile, h1, h2, h3, h4]

/-- Witness for C7 at a concrete source of three bytes starting at
position 1: the size measured is 3 and the final position is 3. -/
theorem tarAddFile_witness :
    TarFile.AddFile tarFileZero "a.txt".toList 7
        { seekEnd := none, seekStart := none, writeHeader := none, copy := none }
        { data := [1, 2, 3], pos := 1 }
      = ([TarEvent.seekEnd 3, TarEvent.seekStart,
          TarEvent.writeHeader
            { Name := "a.txt".toList, Typeflag := 48, Size := 3, Mode := 438,
              ModTime := 7 },
          TarEvent.copy [1, 2, 3]],
         none, { data := [1, 2, 3], pos := 3 }) :=
  (tarAddFile_measures_then_writes tarFileZero "a.txt".toList 7
      { seekEnd := none, seekStart := none, writeHeader := none, copy := none }
      { data := [1, 2, 3], pos := 1 }).1 rfl rfl rfl rfl

/-- C8: ZipFile.AddFile writes a ZIP local-file header for the entry name
with the deflate compression method (8) and the UTF-8-name flag bit
(1 <<< 11) set, then copies the source from its current position to its
end through a 128*1024-byte copy buffer; it returns the header-write error
or, failing that, the copy error, if either occurs. -/
theorem zipAddFile_header_then_copy (z : ZipFile) (path : GoString)
    (flt : ZipFaults) (file : RSState) :
    (flt.createHeader = none → flt.copy = none →
      z.AddFile path flt file =
        ([ZipEvent.createHeader { Name := path, Flags := 1 <<< 11, Method := 8 },
          ZipEvent.copyBuffer (file.data.drop file.pos) (128 * 1024)],
         none, { data := file.data, pos := file.data.length })) ∧
    (∀ e : Err, flt.createHeader = some e →
      (z.AddFile path flt file).2.1 = some e) ∧
    (∀ e : Err, flt.createHeader = none → flt.copy = some e →
      (z.AddFile path flt file).2.1 = some e) := by
  refine ⟨fun h1 h2 => ?_, fun e h1 => ?_, fun e h1 h2 => ?_⟩
  · simp [ZipFile.AddFile, h1, h2]
  · simp [ZipFile.AddFile, h1]
  · simp [ZipFile.AddFile, h1, h2]

/-- Witness for C8 at a concrete source of three bytes starting at
position 1: the copy carries the bytes from position 1 onward through the
128 KiB buffer. -/
theorem zipAddFile_witness :
    ZipFile.AddFile zipFileZero "a.txt".toList
        { createHeader := none, copy := none } { data := [9, 8, 7], pos := 1 }
      = ([ZipEvent.createHeader
            { Name := "a.txt".toList, Flags := 1 <<< 11, Method := 8 },
          ZipEvent.copyBuffer [8, 7] (128 * 1024)],
         none, { data := [9, 8, 7], pos := 3 }) := by
  have h := (zipAddFile_header_then_copy zipFileZero "a.txt".toList
      { createHeader := none, copy := none } { data := [9, 8, 7], pos := 1 }).1
    rfl rfl
  simpa using h

/-- C9: destination-name normalization is idempotent for both formats —
re-normalizing the name produced by ZipFile's normalization returns it
unchanged, and re-running TarFile.configureName on the handle it produced,
with the name it stored, changes neither the stored name nor the
Compressed flag. -/
theorem normalization_idempotent (name : GoString) (t : TarFile) :
    zipConfigureName (zipConfigureName name) = zipConfigureName name ∧
    TarFile.configureName (TarFile.configureName t name)
        (TarFile.configureName t name).Name
      = TarFile.configureName t name := by
  constructor
  · exact zipConfigureName_id_of_ends _ (zipConfigureName_ends_zip name)
  · obtain ⟨hdisj, hcomp⟩ := tar_configureName_invariant t name
    obtain ⟨hA, hB, _, _⟩ :=
      tar_configureName_case (t.configureName name) (t.configureName name).Name
    cases h : hasSuffix (t.configureName name).Name extTarGz with
    | true =>
      rw [hA h]
      exact tarFile_eta _ _ (by rw [hcomp, h])
    | false =>
      have htar : hasSuffix (t.configureName name).Name extTar = true := by
        rcases hdisj with h' | h'
        · exact h'
        · simp [h'] at h
      rw [hB h htar]
      exact tarFile_eta _ _ (by rw [hcomp, h])

/-- C10: after every successful TarFile.Create or TarFile.CreateWriter on
a handle with no gzip wrapper bound yet, for every input name: the stored
Name ends in ".tar" or ".tar.gz", the Compressed flag holds exactly when
the stored Name ends in ".tar.gz", and the gzip wrapper is bound exactly
when Compressed is set. -/
theorem tar_create_establishes_invariant (t : TarFile) (name : GoString)
    (file w : Sink) (hgz : t.GzWriter = false) :
    ((hasSuffix (t.Create name (.ok file)).1.Name extTar = true ∨
       hasSuffix (t.Create name (.ok file)).1.Name extTarGz = true) ∧
     (t.Create name (.ok file)).1.Compressed
       = hasSuffix (t.Create name (.ok file)).1.Name extTarGz ∧
     (t.Create name (.ok file)).1.GzWriter
       = (t.Create name (.ok file)).1.Compressed) ∧
    ((hasSuffix (t.CreateWriter name w).1.Name extTar = true ∨
       hasSuffix (t.CreateWriter name w).1.Name extTarGz = true) ∧
     (t.CreateWriter name w).1.Compressed
       = hasSuffix (t.CreateWriter name w).1.Name extTarGz ∧
     (t.CreateWriter name w).1.GzWriter
       = (t.CreateWriter name w).1.Compressed) := by
  obtain ⟨hdisj, hcomp⟩ := tar_configureName_invariant t name
  have hgzp : (t.configureName name).GzWriter = false := by
    rw [tar_configureName_gz]
    exact hgz
  have hcr : t.Create name (.ok file) =
      if (t.configureName name).Compressed then
        ({ t.configureName name with
            GzWriter := true, Writer := true, out := some file }, none)
      else
        ({ t.configureName name with Writer := true, out := some file }, none) := rfl
  have hcw : t.CreateWriter name w =
      if (t.configureName name).Compressed then
        ({ t.configureName name with
            GzWriter := true, Writer := true, out := some w }, none)
      else
        ({ t.configureName name with Writer := true, out := some w }, none) := rfl
  constructor
  · rw [hcr]
    by_cases hc : (t.configureName name).Compressed = true
    · rw [if_pos hc]
      exact ⟨hdisj, hcomp, hc.symm⟩
    · simp only [Bool.not_eq_true] at hc
      rw [if_neg (by simp [hc])]
      refine ⟨hdisj, hcomp, ?_⟩
      show (t.configureName name).GzWriter = (t.configureName name).Compressed
      rw [hgzp, hc]
  · rw [hcw]
    by_cases hc : (t.configureName name).Compressed = true
    · rw [if_pos hc]
      exact ⟨hdisj, hcomp, hc.symm⟩
    · simp only [Bool.not_eq_true] at hc
      rw [if_neg (by simp [hc])]
      refine ⟨hdisj, hcomp, ?_⟩
      show (t.configureName name).GzWriter = (t.configureName name).Compressed
      rw [hgzp, hc]

/-- Witness for C10 on the zero-valued handle at the concrete name
"archive" (which gains the ".tar" suffix). -/
theorem tar_create_invariant_witness :
    tarFileZero.GzWriter = false ∧
    (hasSuffix (TarFile.Create tarFileZero "archive".toList
        (.ok { isCloser := true, closeErr := none })).1.Name extTar = true ∨
     hasSuffix (TarFile.Create tarFileZero "archive".toList
        (.ok { isCloser := true, closeErr := none })).1.Name extTarGz = true) :=
  ⟨rfl,
    (tar_create_establishes_invariant tarFileZero "archive".toList
        { isCloser := true, closeErr := none } { isCloser := true, closeErr := none }
        rfl).1.1⟩
